import Mathlib

/-!
Verification of the event-aggregation and log-reconstruction core of
`internal/gotest/reader.go` (package `gotest`).

Strings are embedded as `List Char`; the shared output buffer is a
`List Char`; machine integers appear only as the literal `1<<31 - 1`
initialiser of the minimum-indent tracker, embedded as the natural number
`2 ^ 31 - 1` (the Go value is a non-negative `int` constant, no overflow
is involved).

Go standard-library functions used by the source are embedded as follows:
`strings.Contains` as `gotest.hasSubstr`, `strings.Count` as
`gotest.countOccur` (greedy non-overlapping scan, as `strings.Count`
performs for a non-empty pattern), `strings.Replace` as `gotest.replaceN`
(replace the first `n` non-overlapping occurrences, left to right),
`strings.TrimSuffix` as `gotest.trimSuffix`, `strings.ToUpper` as
`gotest.toUpperL`, and `bytes.Split` on a one-byte separator as
`List.splitOn`.  `sort.Slice`, which is unstable in general but performs
a plain insertion sort for slices of fewer than 12 elements, is embedded
as the insertion sort `gotest.sortMarks`; theorems about tie order carry
the `< 12` bound outside which the embedding is not claimed to coincide
with `sort.Slice`.
-/

namespace gotest

/-- Embedding of Go `strings.Contains s pat` on byte strings: `pat` occurs
as a contiguous substring of `s`. -/
def hasSubstr (pat : List Char) : List Char → Bool
  | [] => pat.isEmpty
  | c :: rest => pat.isPrefixOf (c :: rest) || hasSubstr pat rest

/-- Fuel-driven worker for `countOccur`; the fuel is only a structural
termination device and is irrelevant once it is at least the length of
the string (`countOccurAux_fuel`). -/
def countOccurAux (pat : List Char) : Nat → List Char → Nat
  | _, [] => 0
  | 0, _ :: _ => 0
  | f + 1, c :: rest =>
    if !pat.isEmpty && pat.isPrefixOf (c :: rest) then
      1 + countOccurAux pat f ((c :: rest).drop pat.length)
    else
      countOccurAux pat f rest

/-- Embedding of Go `strings.Count s pat` for a non-empty pattern: the
number of non-overlapping occurrences of `pat` in `s`, scanning greedily
left to right.  (The `pat = []` special case of `strings.Count` is never
exercised by the source, which only counts the four-space indent unit.) -/
def countOccur (pat s : List Char) : Nat := countOccurAux pat s.length s

/-- Fuel-driven worker for `replaceN`; the fuel is irrelevant once it is
at least the length of the string (`replaceNAux_fuel`). -/
def replaceNAux (pat rep : List Char) : Nat → List Char → Nat → List Char
  | _, s, 0 => s
  | _, [], _ => []
  | 0, s, _ => s
  | f + 1, c :: rest, n + 1 =>
    if !pat.isEmpty && pat.isPrefixOf (c :: rest) then
      rep ++ replaceNAux pat rep f ((c :: rest).drop pat.length) n
    else
      c :: replaceNAux pat rep f rest (n + 1)

/-- Embedding of Go `strings.Replace s pat rep n` for a non-empty pattern
and `n ≥ 0`: replace the first `n` non-overlapping occurrences of `pat`
in `s` by `rep`, scanning greedily left to right. -/
def replaceN (pat rep s : List Char) (n : Nat) : List Char :=
  replaceNAux pat rep s.length s n

/-- Embedding of Go `strings.TrimSuffix s suf`: remove one trailing copy
of `suf` when present. -/
def trimSuffix (s suf : List Char) : List Char :=
  if suf.isSuffixOf s then s.take (s.length - suf.length) else s

/-- Embedding of Go `strings.ToUpper` restricted to the ASCII action
words the source applies it to. -/
def toUpperL (s : List Char) : List Char := s.map Char.toUpper

/-- Modelled from the spec: the action vocabulary constant `ActionFail`
(declared outside `reader.go`), the lower-case action word of a failing
test event. -/
def ActionFail : List Char := "fail".toList

/-- Modelled from the spec: the action vocabulary constant `ActionPass`. -/
def ActionPass : List Char := "pass".toList

/-- Modelled from the spec: the action vocabulary constant `ActionSkip`. -/
def ActionSkip : List Char := "skip".toList

/-- Modelled from the spec: the action vocabulary constant `ActionOutput`,
the action of an output-emitting event. -/
def ActionOutput : List Char := "output".toList

/-- `whitespaceIndent` from `reader.go`: the four-space indent unit. -/
def whitespaceIndent : List Char := "    ".toList

/-- The `isResultActionRow` closure of `Reader.walk` (reader.go:110-117):
a string is a result action row when it contains `"---"` and one of the
upper-cased action words. -/
def isResultActionRow (s : List Char) : Bool :=
  hasSubstr "---".toList s &&
    (hasSubstr (toUpperL ActionFail) s || hasSubstr (toUpperL ActionPass) s ||
      hasSubstr (toUpperL ActionSkip) s)

/-- The `1<<31 - 1` initialiser of the minimum-indent tracker `mx`
(reader.go:172). -/
def maxInt31 : Nat := 2 ^ 31 - 1

/-- Lines 159-167 of `Reader.walk`: split the slice read back from the
shared buffer on newlines, re-append a trailing newline to every piece
(`slice.Map`, modelled from the spec: re-terminate each line), then trim
the newline back off the final piece. -/
def setLastTrim : List (List Char) → List (List Char)
  | [] => []
  | [x] => [trimSuffix x "\n".toList]
  | x :: y :: rest => x :: setLastTrim (y :: rest)

/-- The line list `stringsSlice` of `Reader.walk` built from the bytes
`all` read back from the shared buffer (reader.go:159-167). -/
def splitLines (all : List Char) : List (List Char) :=
  setLastTrim ((all.splitOn '\n').map (fun t => t ++ "\n".toList))

/-- Lines 171-188 of `Reader.walk`: scan `stringsSlice` from the end to
the beginning, removing each result action row into the side collection
`mark` (hence `mark` holds them in reverse of their original order) and
tracking the minimum `whitespaceIndent` count `mx` seen among them,
starting from `1<<31 - 1`.  Returns (remaining narrative lines, `mark`,
`mx`). -/
def extractMarks : List (List Char) → List (List Char) × List (List Char) × Nat
  | [] => ([], [], maxInt31)
  | l :: ls =>
    let r := extractMarks ls
    if isResultActionRow l then
      (r.1, r.2.1 ++ [l], min (countOccur whitespaceIndent l) r.2.2)
    else
      (l :: r.1, r.2.1, r.2.2)

/-- Abbreviation for the sort key of reader.go:191-195: the
`whitespaceIndent` count of a row. -/
def cntOf (l : List Char) : Nat := countOccur whitespaceIndent l

/-- One step of the insertion sort modelling `sort.Slice` with the
comparator of reader.go:191-195: insert `x` into the already sorted
accumulator, after every element whose indent count does not exceed that
of `x`. -/
def insertCnt (x : List Char) : List (List Char) → List (List Char)
  | [] => [x]
  | y :: ys =>
    if cntOf y ≤ cntOf x then
      y :: insertCnt x ys
    else
      x :: y :: ys

/-- The `sort.Slice` call of reader.go:191-195, sorting `mark` ascending
by `whitespaceIndent` count.  `sort.Slice` is unstable in general but is
exactly an insertion sort for slices of fewer than 12 elements, which is
what this models; theorems about tie order carry that bound. -/
def sortMarks (l : List (List Char)) : List (List Char) :=
  l.foldl (fun acc x => insertCnt x acc) []

/-- The minimum-indent tracker `mx` of `Reader.walk` for the slice
`all`. -/
def minIndent (all : List Char) : Nat := (extractMarks (splitLines all)).2.2

/-- The row sequence of the finished log of `Reader.walk`: the remaining
narrative lines followed by the sorted result rows
(`append(stringsSlice, mark...)`, reader.go:200). -/
def finishedRows (all : List Char) : List (List Char) :=
  let r := extractMarks (splitLines all)
  r.1 ++ sortMarks r.2.1

/-- Lines 199-202 of `Reader.walk`: build the final log bytes by
stripping the first `mx` occurrences of `whitespaceIndent` from every row
and concatenating. -/
def finishLog (all : List Char) : List Char :=
  (finishedRows all).foldl
    (fun lg row => lg ++ replaceN whitespaceIndent [] row (minIndent all)) []

/-- The spec-side reading of step 9 of the walk contract ("stripping
exactly the minimum indentation-unit count's worth of indent units",
leading units only): remove up to `n` leading copies of
`whitespaceIndent` from a row and nothing else. -/
def stripLeadingUnits : Nat → List Char → List Char
  | 0, s => s
  | n + 1, s =>
    if whitespaceIndent.isPrefixOf s then
      stripLeadingUnits n (s.drop whitespaceIndent.length)
    else
      s

/-- The spec-side reading of step 9 applied to every finished row and
concatenated; compared against `finishLog` (which strips occurrences of
the indent unit anywhere in a row, not only leading ones). -/
def finishLogSpecLeading (all : List Char) : List Char :=
  ((finishedRows all).map (stripLeadingUnits (minIndent all))).flatten

/-- Modelled from the spec: the `Test` record (declared outside
`reader.go`) — name, owning package, the ordered append-only sequence of
output fragments, and the verdict/timing fields set by the last relevant
event. -/
structure Test where
  name : List Char
  package : List Char
  output : List (List Char)
  status : List Char
  elapsed : Int
deriving DecidableEq

/-- `NestedTest` from reader.go:17-21: a `Test` snapshot, ordered
children, and the finished log bytes. -/
inductive NestedTest where
  | mk (value : Test) (children : List NestedTest) (log : List Char)

/-- The `Value` field of a `NestedTest`. -/
def NestedTest.value : NestedTest → Test
  | .mk v _ _ => v

/-- The `Children` field of a `NestedTest`. -/
def NestedTest.children : NestedTest → List NestedTest
  | .mk _ cs _ => cs

/-- The `Log` field of a `NestedTest`. -/
def NestedTest.log : NestedTest → List Char
  | .mk _ _ lg => lg

/-- Modelled from the spec: a node of the hierarchy trie `prefixNode`
(declared outside `reader.go`) — an optional owned `Test` (the `Value`
pointer, `none` embedding a nil pointer) and the ordered children (a Go
`[]*prefixNode`, whose entries are themselves possibly nil pointers,
embedded as `Option`). -/
inductive PrefixNode where
  | mk (value : Option Test) (children : List (Option PrefixNode))

/-- The `Value` pointer of a `PrefixNode`. -/
def PrefixNode.value : PrefixNode → Option Test
  | .mk v _ => v

/-- The `Children` field of a `PrefixNode`. -/
def PrefixNode.children : PrefixNode → List (Option PrefixNode)
  | .mk _ cs => cs

/-- `prefixLog` from reader.go:215-219, minus the shared buffer: the
buffer is a single shared object mutated in place, so it is threaded
through the walk separately as an explicit `List Char`; a `PrefixLog`
value carries the other two fields, the branch indentation string and
the position marker. -/
structure PrefixLog where
  pfx : List Char
  pos : Nat
deriving DecidableEq

/-- `newPrefixLog` from reader.go:209-211 (its fresh empty buffer is the
initial `[]` buffer passed alongside). -/
def newPrefixLog : PrefixLog := { pfx := [], pos := 0 }

/-- `prefixLog.incrPrefix` (reader.go:229-231). -/
def PrefixLog.incrPrefix (p : PrefixLog) : PrefixLog :=
  { p with pfx := p.pfx ++ whitespaceIndent }

/-- `prefixLog.decrPrefix` (reader.go:233-235). -/
def PrefixLog.decrPrefix (p : PrefixLog) : PrefixLog :=
  { p with pfx := trimSuffix p.pfx whitespaceIndent }

/-- `prefixLog.copy` (reader.go:221-227): same shared buffer (threaded
separately), same indentation string, position marker set to the current
buffer length. -/
def PrefixLog.copy (p : PrefixLog) (bufLen : Nat) : PrefixLog :=
  { pfx := p.pfx, pos := bufLen }

/-- The emission loop of `Reader.walk` (reader.go:119-127): append every
output fragment, in order, to the shared buffer, prefixing result action
rows with the branch indentation string. -/
def emitAll (pfx : List Char) : List Char → List (List Char) → List Char
  | buf, [] => buf
  | buf, o :: os =>
    emitAll pfx (buf ++ (if isResultActionRow o then pfx ++ o else o)) os

/-- Outcome of `Reader.walk`: either a run-time panic (the nil-pointer
dereference `*node.Value` at reader.go:106 when the node exists but its
`Value` pointer is nil), or a normal return carrying the
`(NestedTest, bool)` pair (`none` embeds `ok = false`), the final state
of the caller's `prefixLog`, and the final contents of the shared
buffer. -/
inductive WalkOut where
  | panicked
  | res (tc : Option NestedTest) (plog : PrefixLog) (buf : List Char)

/-- Modelled from the spec: the decoded input record `Entry` (declared
outside `reader.go`) with the fields the core reads — package identifier,
test name (empty when absent), action word, output fragment, and timing
(opaque to the structural logic; embedded as an integer). -/
structure Entry where
  package : List Char
  testName : List Char
  action : List Char
  output : List Char
  elapsed : Int
deriving DecidableEq

/-- Modelled from the spec: `Test.Update` (declared outside `reader.go`)
— an output-emitted event appends its fragment to the output sequence; a
pass/fail/skip event sets the terminal status and timing; any other
action is accepted without effect. -/
def Test.update (t : Test) (e : Entry) : Test :=
  if e.action = ActionOutput then
    { t with output := t.output ++ [e.output] }
  else if e.action = ActionPass ∨ e.action = ActionFail ∨ e.action = ActionSkip then
    { t with status := e.action, elapsed := e.elapsed }
  else
    t

/-- The fresh `Test` created by `ReadAll` on first sight of a key
(reader.go:64-67): only name and package are set. -/
def mkTest (e : Entry) : Test :=
  { name := e.testName, package := e.package, output := [], status := [], elapsed := 0 }

/-- The lookup key of `ReadAll` (reader.go:60): `package + "/" + name`. -/
def keyOf (e : Entry) : List Char := e.package ++ '/' :: e.testName

/-- Modelled from the spec: the hierarchy trie, represented by its
key-indexed `Test` entries in first-insertion order (the `prefixNode`
structure is declared outside `reader.go`; its parent/child shape is not
needed for the identity-resolution claims, which only use `find` and
`insert` keyed by the full path).  `findT` is `prefixNode.find`: the
entry stored under a key, if any. -/
def findT : List (List Char × Test) → List Char → Option Test
  | [], _ => none
  | (k', t) :: rest, k => if k' = k then some t else findT rest k

/-- Modelled from the spec: in-place mutation of the `Test` owned by a
trie node — replace the entry stored under `k`. -/
def updT : List (List Char × Test) → List Char → Test → List (List Char × Test)
  | [], _, _ => []
  | (k', t) :: rest, k, t2 =>
    if k' = k then (k', t2) :: rest else (k', t) :: updT rest k t2

/-- One iteration of the fold of `ReadAll` (reader.go:59-73) on a decoded
record: records without a test name are ignored; otherwise the entry
under `package + "/" + name` is found or created (`prefixNode.insert`,
modelled from the spec) and the record is folded into it. -/
def stepEntry (trie : List (List Char × Test)) (e : Entry) :
    List (List Char × Test) :=
  if e.testName = [] then trie
  else
    match findT trie (keyOf e) with
    | some t => updT trie (keyOf e) (t.update e)
    | none => trie ++ [(keyOf e, (mkTest e).update e)]

/-- The aggregation of a stream of decoded records (the loop body of
`ReadAll` applied to each line's record in order). -/
def foldEntries (evs : List Entry) : List (List Char × Test) :=
  evs.foldl stepEntry []

/-- Helper for stating identity resolution: the entry under a key after
folding further records for that key into an optional existing entry. -/
def extendEntry (t? : Option Test) (l : List Entry) : Option Test :=
  match l with
  | [] => t?
  | e :: es =>
    match t? with
    | some t => extendEntry (some (t.update e)) es
    | none => extendEntry (some ((mkTest e).update e)) es

/-- The spec-side statement of identity resolution for one key: the one
entry obtained by creating a `Test` from the first record with that key
and folding every record with that key into it, in order. -/
def specEntryFor (evs : List Entry) (k : List Char) : Option Test :=
  match evs.filter (fun e => !(e.testName == []) && (keyOf e == k)) with
  | [] => none
  | e :: es => some ((e :: es).foldl Test.update (mkTest e))

/-- Modelled from Go `encoding/json` semantics: the outcome of decoding
one input line — an error flag (`json.Unmarshal` returned non-nil) and
the record as left by the decoder, which on error holds whatever fields
were populated before the failure (the zero record when nothing was). -/
structure DecLine where
  err : Bool
  row : Entry
deriving DecidableEq

/-- The cancellation signal: `none` embeds a context that is never done,
`some k` a context whose `Done` channel is closed from the `k`-th
per-line check onwards (`some 0` = already cancelled on entry). -/
def ctxDone : Option Nat → Nat → Bool
  | none, _ => false
  | some k, i => decide (k ≤ i)

/-- The observable outcome of the aggregation loop of `ReadAll`
(reader.go:45-78): the collected decode-error indices (`errors.Join`
yields nil exactly when this list is empty), the trie entries, and
whether the run was aborted by cancellation (in which case `ReadAll`
returns the empty `Set{}` and the context's error, discarding
everything). -/
structure ReadOut where
  errs : List Nat
  entries : List (List Char × Test)
  cancelled : Bool
deriving DecidableEq

/-- The `for r.r.Scan()` loop of `ReadAll` (reader.go:45-74): for each
available line, first check the cancellation signal and on cancellation
return the empty result with the context error; otherwise record a
decode error if the line was malformed, fold the decoded record into the
trie (regardless of the decode error — reader.go:55-57 records the error
and falls through), and continue. -/
def readAllLoop (cancelAt : Option Nat) :
    Nat → List DecLine → List Nat → List (List Char × Test) → ReadOut
  | _, [], errs, trie => { errs := errs, entries := trie, cancelled := false }
  | i, l :: ls, errs, trie =>
    if ctxDone cancelAt i then { errs := [], entries := [], cancelled := true }
    else
      readAllLoop cancelAt (i + 1) ls (if l.err then errs ++ [i] else errs)
        (stepEntry trie l.row)

/-- `Reader.ReadAll`'s aggregation phase on a whole input stream (the
walk phase over the resulting trie is modelled separately by `walk`). -/
def readAllGo (cancelAt : Option Nat) (lines : List DecLine) : ReadOut :=
  readAllLoop cancelAt 0 lines [] []

/-- The indices (from position `i`) of the lines whose decode failed:
the error list `errs` collected by an uncancelled run of `ReadAll`
(`errors.Join` of which is nil exactly when this list is empty). -/
def badIdx : Nat → List DecLine → List Nat
  | _, [] => []
  | i, l :: ls => (if l.err then [i] else []) ++ badIdx (i + 1) ls

mutual

/-- `Reader.walk` (reader.go:99-207).  A nil node pointer returns not-ok
with everything untouched (reader.go:102-104); a non-nil node with a nil
`Value` pointer panics at `testCase.Value = *node.Value`
(reader.go:106).  Otherwise the node's fragments are emitted to the
shared buffer (reader.go:119-127), the output field is cleared
(reader.go:130), the indentation is incremented before and decremented
after the children (reader.go:133-134, the deferred decrement acting on
the caller-visible `prefixLog`, returned in the result), each child is
walked with a `copy` whose position marker is the buffer length at that
moment (reader.go:139-143), and the node's own slice — the buffer from
its position marker on — is reprocessed into the finished log
(reader.go:147-204, `finishLog`).  The `Seek`/`io.ReadAll` error
branches (reader.go:148-156) cannot fire for a `bytes.Reader` at a
non-negative in-range position and are not modelled. -/
def walk : Option PrefixNode → PrefixLog → List Char → WalkOut
  | none, p, buf => .res none p buf
  | some (.mk none _), _, _ => .panicked
  | some (.mk (some v) children), p, buf =>
    let buf1 := emitAll p.pfx buf v.output
    let p1 := p.incrPrefix
    match walkChildren children p1 buf1 with
    | none => .panicked
    | some (kids, buf2) =>
      .res (some (.mk { v with output := [] } kids (finishLog (buf2.drop p.pos))))
        p1.decrPrefix buf2

/-- The child loop of `Reader.walk` (reader.go:139-143): walk each child
with a `copy` of the prefix log taken at the current buffer length,
appending the `ok` results and silently skipping the not-ok ones;
a panic in a child propagates. -/
def walkChildren :
    List (Option PrefixNode) → PrefixLog → List Char →
      Option (List NestedTest × List Char)
  | [], _, buf => some ([], buf)
  | c :: cs, pl, buf =>
    match walk c (pl.copy buf.length) buf with
    | .panicked => none
    | .res none _ buf' => walkChildren cs pl buf'
    | .res (some tc) _ buf' =>
      match walkChildren cs pl buf' with
      | none => none
      | some (l, b) => some (tc :: l, b)

end

end gotest

namespace gotest

theorem hasSubstr_iff (pat s : List Char) : hasSubstr pat s = true ↔ pat <:+: s := by
  induction s with
  | nil =>
    simp [hasSubstr, List.isEmpty_iff]
  | cons c rest ih =>
    simp [hasSubstr, List.infix_cons_iff, ih, List.isPrefixOf_iff_prefix]

theorem countOccurAux_fuel (pat : List Char) :
    ∀ f g s, s.length ≤ f → s.length ≤ g →
      countOccurAux pat f s = countOccurAux pat g s := by
  intro f
  induction f using Nat.strong_induction_on with
  | _ f ih =>
    intro g s hf hg
    cases s with
    | nil => cases f <;> cases g <;> rfl
    | cons c rest =>
      cases f with
      | zero => simp at hf
      | succ f =>
        cases g with
        | zero => simp at hg
        | succ g =>
          simp only [countOccurAux]
          split
          · next hcond =>
            have hpat : pat ≠ [] := by
              rcases Bool.and_eq_true_iff.mp hcond with ⟨h1, _⟩
              simpa [List.isEmpty_iff] using h1
            have hplen : 1 ≤ pat.length := by
              cases pat with
              | nil => exact absurd rfl hpat
              | cons a l => simp
            have hlen : ((c :: rest).drop pat.length).length ≤ f := by
              simp only [List.length_drop, List.length_cons]
              simp only [List.length_cons] at hf
              omega
            have hlen' : ((c :: rest).drop pat.length).length ≤ g := by
              simp only [List.length_drop, List.length_cons]
              simp only [List.length_cons] at hg
              omega
            rw [ih f (Nat.lt_succ_self f) g _ hlen hlen']
          · next =>
            have hlen : rest.length ≤ f := by
              simp only [List.length_cons] at hf; omega
            have hlen' : rest.length ≤ g := by
              simp only [List.length_cons] at hg; omega
            rw [ih f (Nat.lt_succ_self f) g _ hlen hlen']

theorem countOccur_nil (pat : List Char) : countOccur pat [] = 0 := rfl

theorem countOccur_cons (pat : List Char) (c : Char) (rest : List Char) :
    countOccur pat (c :: rest) =
      if !pat.isEmpty && pat.isPrefixOf (c :: rest) then
        1 + countOccur pat ((c :: rest).drop pat.length)
      else
        countOccur pat rest := by
  show countOccurAux pat (rest.length + 1) (c :: rest) = _
  simp only [countOccurAux]
  split
  · next hcond =>
    have hpat : pat ≠ [] := by
      rcases Bool.and_eq_true_iff.mp hcond with ⟨h1, _⟩
      simpa [List.isEmpty_iff] using h1
    have hplen : 1 ≤ pat.length := by
      cases pat with
      | nil => exact absurd rfl hpat
      | cons a l => simp
    rw [countOccurAux_fuel pat rest.length ((c :: rest).drop pat.length).length]
    · rfl
    · simp only [List.length_drop, List.length_cons]; omega
    · rfl
  · rfl

theorem replaceNAux_fuel (pat rep : List Char) :
    ∀ f g s n, s.length ≤ f → s.length ≤ g →
      replaceNAux pat rep f s n = replaceNAux pat rep g s n := by
  intro f
  induction f using Nat.strong_induction_on with
  | _ f ih =>
    intro g s n hf hg
    cases n with
    | zero => cases s <;> cases f <;> cases g <;> rfl
    | succ n =>
      cases s with
      | nil => cases f <;> cases g <;> rfl
      | cons c rest =>
        cases f with
        | zero => simp at hf
        | succ f =>
          cases g with
          | zero => simp at hg
          | succ g =>
            simp only [replaceNAux]
            split
            · next hcond =>
              have hpat : pat ≠ [] := by
                rcases Bool.and_eq_true_iff.mp hcond with ⟨h1, _⟩
                simpa [List.isEmpty_iff] using h1
              have hplen : 1 ≤ pat.length := by
                cases pat with
                | nil => exact absurd rfl hpat
                | cons a l => simp
              have hlen : ((c :: rest).drop pat.length).length ≤ f := by
                simp only [List.length_drop, List.length_cons]
                simp only [List.length_cons] at hf
                omega
              have hlen' : ((c :: rest).drop pat.length).length ≤ g := by
                simp only [List.length_drop, List.length_cons]
                simp only [List.length_cons] at hg
                omega
              rw [ih f (Nat.lt_succ_self f) g _ n hlen hlen']
            · next =>
              have hlen : rest.length ≤ f := by
                simp only [List.length_cons] at hf; omega
              have hlen' : rest.length ≤ g := by
                simp only [List.length_cons] at hg; omega
              rw [ih f (Nat.lt_succ_self f) g _ (n + 1) hlen hlen']

theorem replaceN_zero (pat rep s : List Char) : replaceN pat rep s 0 = s := by
  cases s <;> rfl

theorem replaceN_nil (pat rep : List Char) (n : Nat) : replaceN pat rep [] n = [] := by
  cases n <;> rfl

theorem replaceN_cons (pat rep : List Char) (c : Char) (rest : List Char) (n : Nat) :
    replaceN pat rep (c :: rest) (n + 1) =
      if !pat.isEmpty && pat.isPrefixOf (c :: rest) then
        rep ++ replaceN pat rep ((c :: rest).drop pat.length) n
      else
        c :: replaceN pat rep rest (n + 1) := by
  show replaceNAux pat rep (rest.length + 1) (c :: rest) (n + 1) = _
  simp only [replaceNAux]
  split
  · next hcond =>
    have hpat : pat ≠ [] := by
      rcases Bool.and_eq_true_iff.mp hcond with ⟨h1, _⟩
      simpa [List.isEmpty_iff] using h1
    have hplen : 1 ≤ pat.length := by
      cases pat with
      | nil => exact absurd rfl hpat
      | cons a l => simp
    rw [replaceNAux_fuel pat rep rest.length ((c :: rest).drop pat.length).length]
    · rfl
    · simp only [List.length_drop, List.length_cons]; omega
    · rfl
  · rfl

theorem extractMarks_eq (ls : List (List Char)) :
    extractMarks ls =
      (ls.filter (fun l => !isResultActionRow l),
       (ls.filter (fun l => isResultActionRow l)).reverse,
       (ls.filter (fun l => isResultActionRow l)).foldr
         (fun l m => min (cntOf l) m) maxInt31) := by
  induction ls with
  | nil => rfl
  | cons l ls ih =>
    simp only [extractMarks, ih, List.filter_cons]
    cases hr : isResultActionRow l <;> simp [cntOf]

theorem insertCnt_perm (x : List Char) (l : List (List Char)) :
    (insertCnt x l).Perm (x :: l) := by
  induction l with
  | nil => exact List.Perm.refl _
  | cons y ys ih =>
    simp only [insertCnt]
    split
    · exact ((ih.cons y).trans (List.Perm.swap x y ys))
    · exact List.Perm.refl _

theorem insertCnt_sorted (x : List Char) (l : List (List Char))
    (h : l.Pairwise (fun a b => cntOf a ≤ cntOf b)) :
    (insertCnt x l).Pairwise (fun a b => cntOf a ≤ cntOf b) := by
  induction l with
  | nil => simp [insertCnt]
  | cons y ys ih =>
    rcases List.pairwise_cons.mp h with ⟨hy, hys⟩
    simp only [insertCnt]
    split
    · next hle =>
      refine List.pairwise_cons.mpr ⟨?_, ih hys⟩
      intro z hz
      rcases List.mem_cons.mp ((insertCnt_perm x ys).mem_iff.mp hz) with rfl | hz
      · exact hle
      · exact hy z hz
    · next hlt =>
      refine List.pairwise_cons.mpr ⟨?_, h⟩
      intro z hz
      rcases List.mem_cons.mp hz with rfl | hz
      · omega
      · exact le_trans (by omega) (hy z hz)

theorem insertCnt_filter (x : List Char) (k : Nat) (l : List (List Char))
    (h : l.Pairwise (fun a b => cntOf a ≤ cntOf b)) :
    (insertCnt x l).filter (fun y => cntOf y == k) =
      l.filter (fun y => cntOf y == k) ++ (if cntOf x = k then [x] else []) := by
  induction l with
  | nil =>
    simp only [insertCnt, List.filter_cons, List.filter_nil, List.nil_append]
    by_cases hxk : cntOf x = k <;> simp [hxk]
  | cons y ys ih =>
    rcases List.pairwise_cons.mp h with ⟨hy, hys⟩
    simp only [insertCnt]
    split
    · next hle =>
      simp only [List.filter_cons, ih hys]
      split <;> simp
    · next hlt =>
      push_neg at hlt
      by_cases hxk : cntOf x = k
      · have hnil : (y :: ys).filter (fun z => cntOf z == k) = [] := by
          apply List.filter_eq_nil_iff.mpr
          intro z hz
          have hzk : k < cntOf z := by
            rcases List.mem_cons.mp hz with rfl | hz
            · omega
            · have := hy z hz; omega
          simp only [beq_iff_eq]
          omega
        simp [List.filter_cons, hnil, hxk]
      · simp only [List.filter_cons]
        have : (cntOf x == k) = false := by simp [hxk]
        simp [this, hxk]

theorem sortMarks_go_perm (l : List (List Char)) :
    ∀ acc, (l.foldl (fun acc x => insertCnt x acc) acc).Perm (acc ++ l) := by
  induction l with
  | nil => intro acc; simp
  | cons x xs ih =>
    intro acc
    simp only [List.foldl_cons]
    refine (ih (insertCnt x acc)).trans ?_
    have h1 : (insertCnt x acc ++ xs).Perm ((x :: acc) ++ xs) :=
      (insertCnt_perm x acc).append_right xs
    refine h1.trans ?_
    simpa using List.perm_middle.symm

theorem sortMarks_go_sorted (l : List (List Char)) :
    ∀ acc, acc.Pairwise (fun a b => cntOf a ≤ cntOf b) →
      (l.foldl (fun acc x => insertCnt x acc) acc).Pairwise
        (fun a b => cntOf a ≤ cntOf b) := by
  induction l with
  | nil => intro acc h; simpa using h
  | cons x xs ih =>
    intro acc h
    simp only [List.foldl_cons]
    exact ih _ (insertCnt_sorted x acc h)

theorem sortMarks_go_filter (k : Nat) (l : List (List Char)) :
    ∀ acc, acc.Pairwise (fun a b => cntOf a ≤ cntOf b) →
      (l.foldl (fun acc x => insertCnt x acc) acc).filter (fun y => cntOf y == k) =
        acc.filter (fun y => cntOf y == k) ++ l.filter (fun y => cntOf y == k) := by
  induction l with
  | nil => intro acc h; simp
  | cons x xs ih =>
    intro acc h
    simp only [List.foldl_cons, List.filter_cons]
    rw [ih _ (insertCnt_sorted x acc h), insertCnt_filter x k acc h]
    by_cases hxk : cntOf x = k
    · simp [hxk]
    · have : (cntOf x == k) = false := by simp [hxk]
      simp [this, hxk]

theorem sortMarks_perm (l : List (List Char)) : (sortMarks l).Perm l := by
  simpa using sortMarks_go_perm l []

theorem sortMarks_sorted (l : List (List Char)) :
    (sortMarks l).Pairwise (fun a b => cntOf a ≤ cntOf b) :=
  sortMarks_go_sorted l [] (by simp)

theorem sortMarks_filter (k : Nat) (l : List (List Char)) :
    (sortMarks l).filter (fun y => cntOf y == k) = l.filter (fun y => cntOf y == k) := by
  simpa using sortMarks_go_filter k l [] (by simp)

theorem wsPrefix_iff (s : List Char) :
    whitespaceIndent.isPrefixOf s = true ↔
      ∃ t, s = ' ' :: ' ' :: ' ' :: ' ' :: t := by
  have hws : whitespaceIndent = [' ', ' ', ' ', ' '] := rfl
  rw [hws]
  constructor
  · intro h
    rcases List.isPrefixOf_iff_prefix.mp h with ⟨t, ht⟩
    exact ⟨t, ht.symm⟩
  · rintro ⟨t, rfl⟩
    exact List.isPrefixOf_iff_prefix.mpr ⟨t, rfl⟩

theorem countOccur_cons_nomatch {c : Char} {rest : List Char}
    (h : whitespaceIndent.isPrefixOf (c :: rest) = false) :
    countOccur whitespaceIndent (c :: rest) = countOccur whitespaceIndent rest := by
  rw [countOccur_cons, h]
  simp

theorem countOccur_cons_match (t : List Char) :
    countOccur whitespaceIndent (' ' :: ' ' :: ' ' :: ' ' :: t) =
      1 + countOccur whitespaceIndent t := by
  rw [countOccur_cons]
  have h : whitespaceIndent.isPrefixOf (' ' :: ' ' :: ' ' :: ' ' :: t) = true :=
    (wsPrefix_iff _).mpr ⟨t, rfl⟩
  rw [h]
  simp [whitespaceIndent]

theorem replaceN_cons_nomatch {c : Char} {rest : List Char} (n : Nat)
    (h : whitespaceIndent.isPrefixOf (c :: rest) = false) :
    replaceN whitespaceIndent [] (c :: rest) n =
      c :: replaceN whitespaceIndent [] rest n := by
  cases n with
  | zero => rw [replaceN_zero, replaceN_zero]
  | succ m => rw [replaceN_cons, h]; simp

theorem replaceN_cons_match (t : List Char) (m : Nat) :
    replaceN whitespaceIndent [] (' ' :: ' ' :: ' ' :: ' ' :: t) (m + 1) =
      replaceN whitespaceIndent [] t m := by
  rw [replaceN_cons]
  have h : whitespaceIndent.isPrefixOf (' ' :: ' ' :: ' ' :: ' ' :: t) = true :=
    (wsPrefix_iff _).mpr ⟨t, rfl⟩
  rw [h]
  simp [whitespaceIndent]

/-- If the indent unit does not start at the head of a line, removing
occurrences of it further right can never create an occurrence at the
head: every character the removal deletes is a space, so the first
non-space among the head's four characters survives in place. -/
theorem wsPrefix_replaceN_false (c : Char) (rest : List Char) (n : Nat)
    (h : whitespaceIndent.isPrefixOf (c :: rest) = false) :
    whitespaceIndent.isPrefixOf (c :: replaceN whitespaceIndent [] rest n) = false := by
  have hiff := fun s => wsPrefix_iff s
  by_cases hc : c = ' '
  · subst hc
    have hrest : ¬ ∃ t, rest = ' ' :: ' ' :: ' ' :: t := by
      intro ⟨t, ht⟩
      rw [← Bool.not_eq_true, hiff] at h
      exact h ⟨t, by rw [ht]⟩
    match rest with
    | [] =>
      rw [replaceN_nil]
      rfl
    | d :: r2 =>
      by_cases hd : d = ' '
      · subst hd
        have hr2 : ¬ ∃ t, r2 = ' ' :: ' ' :: t := by
          intro ⟨t, ht⟩
          exact hrest ⟨t, by rw [ht]⟩
        have hnp : whitespaceIndent.isPrefixOf (' ' :: r2) = false := by
          rw [← Bool.not_eq_true, hiff]
          intro ⟨t, ht⟩
          rcases List.cons.injEq .. ▸ ht with ⟨_, ht2⟩
          exact hr2 ⟨' ' :: t, by rw [ht2]⟩
        rw [replaceN_cons_nomatch n hnp]
        match r2 with
        | [] =>
          rw [replaceN_nil]
          rfl
        | e :: r3 =>
          by_cases he : e = ' '
          · subst he
            have hr3 : ¬ ∃ t, r3 = ' ' :: t := by
              intro ⟨t, ht⟩
              exact hr2 ⟨t, by rw [ht]⟩
            have hnp3 : whitespaceIndent.isPrefixOf (' ' :: r3) = false := by
              rw [← Bool.not_eq_true, hiff]
              intro ⟨t, ht⟩
              rcases List.cons.injEq .. ▸ ht with ⟨_, ht2⟩
              exact hr3 ⟨' ' :: ' ' :: t, by rw [ht2]⟩
            rw [replaceN_cons_nomatch n hnp3]
            match r3 with
            | [] =>
              rw [replaceN_nil]
              rfl
            | f :: r4 =>
              have hf : f ≠ ' ' := fun hf => hr3 ⟨r4, by rw [hf]⟩
              have hnp4 : whitespaceIndent.isPrefixOf (f :: r4) = false := by
                rw [← Bool.not_eq_true, hiff]
                intro ⟨t, ht⟩
                rcases List.cons.injEq .. ▸ ht with ⟨htf, _⟩
                exact hf htf
              rw [replaceN_cons_nomatch n hnp4]
              rw [← Bool.not_eq_true, hiff]
              intro ⟨t, ht⟩
              simp only [List.cons.injEq] at ht
              exact hf ht.2.2.2.1
          · have hnp3 : whitespaceIndent.isPrefixOf (e :: r3) = false := by
              rw [← Bool.not_eq_true, hiff]
              intro ⟨t, ht⟩
              simp only [List.cons.injEq] at ht
              exact he ht.1
            rw [replaceN_cons_nomatch n hnp3]
            rw [← Bool.not_eq_true, hiff]
            intro ⟨t, ht⟩
            simp only [List.cons.injEq] at ht
            exact he ht.2.2.1
      · have hnp : whitespaceIndent.isPrefixOf (d :: r2) = false := by
          rw [← Bool.not_eq_true, hiff]
          intro ⟨t, ht⟩
          simp only [List.cons.injEq] at ht
          exact hd ht.1
        rw [replaceN_cons_nomatch n hnp]
        rw [← Bool.not_eq_true, hiff]
        intro ⟨t, ht⟩
        simp only [List.cons.injEq] at ht
        exact hd ht.2.1
  · rw [← Bool.not_eq_true, hiff]
    intro ⟨t, ht⟩
    simp only [List.cons.injEq] at ht
    exact hc ht.1

/-- Stripping at least as many occurrences of the indent unit as a line
contains leaves a line with no occurrence at all. -/
theorem countOccur_replaceN_eq_zero (s : List Char) (n : Nat)
    (hn : countOccur whitespaceIndent s ≤ n) :
    countOccur whitespaceIndent (replaceN whitespaceIndent [] s n) = 0 := by
  have main : ∀ len s n, s.length ≤ len → countOccur whitespaceIndent s ≤ n →
      countOccur whitespaceIndent (replaceN whitespaceIndent [] s n) = 0 := by
    intro len
    induction len with
    | zero =>
      intro s n hlen _
      have : s = [] := List.eq_nil_of_length_eq_zero (Nat.le_zero.mp hlen)
      subst this
      rw [replaceN_nil]
      rfl
    | succ len ih =>
      intro s n hlen hn
      match s with
      | [] => rw [replaceN_nil]; rfl
      | c :: rest =>
        by_cases hp : whitespaceIndent.isPrefixOf (c :: rest) = true
        · rcases (wsPrefix_iff _).mp hp with ⟨t, ht⟩
          rw [ht] at hn hlen ⊢
          rw [countOccur_cons_match] at hn
          cases n with
          | zero => omega
          | succ m =>
            rw [replaceN_cons_match]
            have hlt : t.length ≤ len := by
              simp only [List.length_cons] at hlen; omega
            exact ih t m hlt (by omega)
        · have hp' : whitespaceIndent.isPrefixOf (c :: rest) = false :=
            Bool.eq_false_iff.mpr hp
          rw [countOccur_cons_nomatch hp'] at hn
          cases n with
          | zero =>
            rw [replaceN_zero]
            have : countOccur whitespaceIndent rest = 0 := by omega
            rw [countOccur_cons_nomatch hp', this]
          | succ m =>
            rw [replaceN_cons_nomatch (m + 1) hp']
            have hR := wsPrefix_replaceN_false c rest (m + 1) hp'
            rw [countOccur_cons_nomatch hR]
            have hlt : rest.length ≤ len := by
              simp only [List.length_cons] at hlen; omega
            exact ih rest (m + 1) hlt hn
  exact main s.length s n (le_refl _) hn

theorem one_le_countOccur_of_wsPrefix {s : List Char}
    (h : whitespaceIndent.isPrefixOf s = true) :
    1 ≤ countOccur whitespaceIndent s := by
  rcases (wsPrefix_iff _).mp h with ⟨t, rfl⟩
  rw [countOccur_cons_match]
  omega

theorem foldr_min_const {marks : List (List Char)} {c : Nat}
    (hne : marks ≠ []) (hall : ∀ l ∈ marks, cntOf l = c) (hcm : c ≤ maxInt31) :
    marks.foldr (fun l m => min (cntOf l) m) maxInt31 = c := by
  induction marks with
  | nil => exact absurd rfl hne
  | cons x xs ih =>
    rw [List.foldr_cons]
    have hx : cntOf x = c := hall x (List.mem_cons_self x xs)
    cases xs with
    | nil => simp [hx, Nat.min_eq_left hcm]
    | cons y ys =>
      rw [ih (by simp) (fun l hl => hall l (List.mem_cons_of_mem x hl))]
      simp [hx]

theorem foldl_append_map (f : List Char → List Char) :
    ∀ (rows : List (List Char)) (lg : List Char),
      rows.foldl (fun lg row => lg ++ f row) lg = lg ++ (rows.map f).flatten := by
  intro rows
  induction rows with
  | nil => intro lg; simp
  | cons r rs ih =>
    intro lg
    rw [List.foldl_cons, ih, List.map_cons, List.flatten_cons, List.append_assoc]

theorem finishedRows_perm (all : List Char) :
    (finishedRows all).Perm (splitLines all) := by
  have h := List.filter_append_perm (fun l => !isResultActionRow l) (splitLines all)
  simp only [Bool.not_not] at h
  show (let r := extractMarks (splitLines all); r.1 ++ sortMarks r.2.1).Perm _
  rw [extractMarks_eq]
  exact (List.Perm.append_left _
    ((sortMarks_perm _).trans (List.reverse_perm _))).trans h

/-- The minimum-indent tracker equals the common count when every line of
the slice has `whitespaceIndent` count `c` and at least one result row is
present. -/
theorem minIndent_eq_of_const (all : List Char) (c : Nat)
    (hall : ∀ l ∈ splitLines all, cntOf l = c)
    (hcm : c ≤ maxInt31)
    (hmarks : (splitLines all).filter (fun l => isResultActionRow l) ≠ []) :
    minIndent all = c := by
  show (extractMarks (splitLines all)).2.2 = c
  rw [extractMarks_eq]
  exact foldr_min_const hmarks
    (fun l hl => hall l (List.mem_of_mem_filter hl)) hcm

theorem emitAll_eq (pfx : List Char) :
    ∀ (outs : List (List Char)) (buf : List Char),
      emitAll pfx buf outs =
        buf ++ (outs.map
          (fun o => if isResultActionRow o then pfx ++ o else o)).flatten := by
  intro outs
  induction outs with
  | nil => intro buf; simp [emitAll]
  | cons o os ih =>
    intro buf
    rw [emitAll, ih, List.map_cons, List.flatten_cons, List.append_assoc]

theorem trimSuffix_append (a u : List Char) : trimSuffix (a ++ u) u = a := by
  unfold trimSuffix
  have hs : u.isSuffixOf (a ++ u) = true :=
    List.isSuffixOf_iff_suffix.mpr ⟨a, rfl⟩
  rw [hs]
  simp only [if_true, List.length_append]
  have : a.length + u.length - u.length = a.length := by omega
  rw [this]
  exact List.take_left' rfl

theorem decrPrefix_incrPrefix (p : PrefixLog) : p.incrPrefix.decrPrefix = p := by
  show ({ p with pfx := trimSuffix (p.pfx ++ whitespaceIndent) whitespaceIndent }
    : PrefixLog) = p
  rw [trimSuffix_append]

mutual

theorem walk_frame (n : Option PrefixNode) (p : PrefixLog) (buf : List Char)
    (tc : Option NestedTest) (p' : PrefixLog) (buf' : List Char)
    (h : walk n p buf = .res tc p' buf') : p' = p ∧ buf <+: buf' := by
  match n with
  | none =>
    rw [walk] at h
    cases h
    exact ⟨rfl, List.prefix_rfl⟩
  | some (.mk none children) =>
    rw [walk] at h
    cases h
  | some (.mk (some v) children) =>
    simp only [walk] at h
    split at h
    · cases h
    · rename_i x kids buf2 hw
      cases h
      have h1 : buf <+: emitAll p.pfx buf v.output := by
        rw [emitAll_eq]
        exact ⟨_, rfl⟩
      have h2 := walkChildren_frame children p.incrPrefix
        (emitAll p.pfx buf v.output) kids buf' hw
      exact ⟨decrPrefix_incrPrefix p, h1.trans h2⟩

theorem walkChildren_frame (cs : List (Option PrefixNode)) (pl : PrefixLog)
    (buf : List Char) (kids : List NestedTest) (buf' : List Char)
    (h : walkChildren cs pl buf = some (kids, buf')) : buf <+: buf' := by
  match cs with
  | [] =>
    rw [walkChildren] at h
    cases h
    exact List.prefix_rfl
  | c :: cs =>
    rw [walkChildren] at h
    split at h
    · cases h
    · rename_i plc b1 hw
      have h1 := (walk_frame c (pl.copy buf.length) buf none plc b1 hw).2
      exact h1.trans (walkChildren_frame cs pl b1 kids buf' h)
    · rename_i t plc b1 hw
      split at h
      · cases h
      · rename_i x l b hw2
        cases h
        have h1 := (walk_frame c (pl.copy buf.length) buf (some t) plc b1 hw).2
        exact h1.trans (walkChildren_frame cs pl b1 l buf' hw2)

end

theorem updT_map_fst (tr : List (List Char × Test)) (k : List Char) (t2 : Test) :
    (updT tr k t2).map Prod.fst = tr.map Prod.fst := by
  induction tr with
  | nil => rfl
  | cons p rest ih =>
    obtain ⟨k', t⟩ := p
    rw [updT]
    split <;> simp [ih]

theorem findT_eq_none_iff (tr : List (List Char × Test)) (k : List Char) :
    findT tr k = none ↔ k ∉ tr.map Prod.fst := by
  induction tr with
  | nil => simp [findT]
  | cons p rest ih =>
    obtain ⟨k', t⟩ := p
    rw [findT]
    by_cases hk : k' = k
    · subst hk
      rw [if_pos rfl]
      simp only [List.map_cons, List.mem_cons]
      constructor
      · intro h
        exact Option.noConfusion h
      · intro h
        exact absurd (Or.inl trivial) h
    · rw [if_neg hk, ih]
      simp only [List.map_cons, List.mem_cons, not_or]
      constructor
      · exact fun h => ⟨fun hkk => hk hkk.symm, h⟩
      · exact fun h => h.2

theorem findT_updT_eq (tr : List (List Char × Test)) (k : List Char)
    (t t2 : Test) (h : findT tr k = some t) :
    findT (updT tr k t2) k = some t2 := by
  induction tr with
  | nil => simp [findT] at h
  | cons p rest ih =>
    obtain ⟨k', t'⟩ := p
    rw [findT] at h
    rw [updT]
    by_cases hk : k' = k
    · simp only [hk, if_true]
      rw [findT]
      simp
    · rw [if_neg hk, findT, if_neg hk]
      exact ih (by rwa [if_neg hk] at h)

theorem findT_updT_ne (tr : List (List Char × Test)) (k k2 : List Char)
    (t2 : Test) (h : k2 ≠ k) : findT (updT tr k2 t2) k = findT tr k := by
  induction tr with
  | nil => rfl
  | cons p rest ih =>
    obtain ⟨k', t'⟩ := p
    rw [updT]
    by_cases hk : k' = k2
    · subst hk
      rw [if_pos rfl, findT, findT, if_neg h, if_neg h]
    · rw [if_neg hk, findT, findT]
      by_cases hk2 : k' = k
      · rw [if_pos hk2, if_pos hk2]
      · rw [if_neg hk2, if_neg hk2]
        exact ih

theorem findT_append_none (tr : List (List Char × Test)) (k k2 : List Char)
    (t : Test) (h : findT tr k = none) :
    findT (tr ++ [(k2, t)]) k = if k2 = k then some t else none := by
  induction tr with
  | nil => simp [findT]
  | cons p rest ih =>
    obtain ⟨k', t'⟩ := p
    rw [findT] at h
    rw [List.cons_append, findT]
    by_cases hk : k' = k
    · simp [hk] at h
    · rw [if_neg hk]
      exact ih (by rwa [if_neg hk] at h)

theorem findT_append_some (tr : List (List Char × Test)) (k k2 : List Char)
    (t t' : Test) (h : findT tr k = some t') :
    findT (tr ++ [(k2, t)]) k = some t' := by
  induction tr with
  | nil => simp [findT] at h
  | cons p rest ih =>
    obtain ⟨k', t''⟩ := p
    rw [findT] at h
    rw [List.cons_append, findT]
    by_cases hk : k' = k
    · rwa [if_pos hk] at h ⊢
    · rw [if_neg hk]
      exact ih (by rwa [if_neg hk] at h)

theorem extendEntry_some (l : List Entry) :
    ∀ t : Test, extendEntry (some t) l = some (l.foldl Test.update t) := by
  induction l with
  | nil => intro t; rfl
  | cons e es ih =>
    intro t
    show extendEntry (some (t.update e)) es = _
    rw [ih, List.foldl_cons]

theorem stepEntry_skip (tr : List (List Char × Test)) (e : Entry)
    (h : e.testName = []) : stepEntry tr e = tr := by
  simp [stepEntry, h]

theorem foldEntries_go_find (k : List Char) (evs : List Entry) :
    ∀ tr, findT (evs.foldl stepEntry tr) k =
      extendEntry (findT tr k)
        (evs.filter (fun e => !(e.testName == []) && (keyOf e == k))) := by
  induction evs with
  | nil => intro tr; rfl
  | cons e es ih =>
    intro tr
    rw [List.foldl_cons, ih, List.filter_cons]
    by_cases hname : e.testName = []
    · have hpred : (!(e.testName == []) && (keyOf e == k)) = false := by
        simp [hname]
      rw [hpred, if_neg (by simp), stepEntry_skip tr e hname]
    · by_cases hkey : keyOf e = k
      · have hpred : (!(e.testName == []) && (keyOf e == k)) = true := by
          simp [hname, hkey]
        rw [hpred, if_pos rfl]
        subst hkey
        rw [stepEntry, if_neg hname]
        cases hf : findT tr (keyOf e) with
        | some t =>
          rw [findT_updT_eq tr (keyOf e) t (t.update e) hf]
          rfl
        | none =>
          rw [findT_append_none tr (keyOf e) (keyOf e) ((mkTest e).update e) hf,
            if_pos rfl]
          rfl
      · have hpred : (!(e.testName == []) && (keyOf e == k)) = false := by
          simp [hkey]
        rw [hpred, if_neg (by simp)]
        rw [stepEntry, if_neg hname]
        cases hf2 : findT tr (keyOf e) with
        | some t => rw [findT_updT_ne tr k (keyOf e) (t.update e) hkey]
        | none =>
          cases hfk : findT tr k with
          | some t' =>
            rw [findT_append_some tr k (keyOf e) ((mkTest e).update e) t' hfk]
          | none =>
            rw [findT_append_none tr k (keyOf e) ((mkTest e).update e) hfk,
              if_neg hkey]

theorem foldEntries_go_nodup (evs : List Entry) :
    ∀ tr, (tr.map Prod.fst).Nodup →
      ((evs.foldl stepEntry tr).map Prod.fst).Nodup := by
  induction evs with
  | nil => intro tr h; simpa using h
  | cons e es ih =>
    intro tr h
    rw [List.foldl_cons]
    apply ih
    rw [stepEntry]
    by_cases hname : e.testName = []
    · rwa [if_pos hname]
    · rw [if_neg hname]
      cases hf : findT tr (keyOf e) with
      | some t => rwa [updT_map_fst]
      | none =>
        have hk : keyOf e ∉ tr.map Prod.fst := (findT_eq_none_iff tr (keyOf e)).mp hf
        rw [List.map_append]
        refine List.nodup_append.mpr ⟨h, by simp, ?_⟩
        intro a ha hb
        simp only [List.map_cons, List.map_nil, List.mem_cons,
          List.not_mem_nil, or_false] at hb
        exact hk (hb ▸ ha)

theorem readAllLoop_err_irrelevant (cancelAt : Option Nat) :
    ∀ (ls : List DecLine) (i : Nat) (errs errs2 : List Nat)
      (trie : List (List Char × Test)),
      (readAllLoop cancelAt i ls errs trie).entries =
          (readAllLoop cancelAt i (ls.map (fun l => ⟨false, l.row⟩)) errs2
            trie).entries ∧
        (readAllLoop cancelAt i ls errs trie).cancelled =
          (readAllLoop cancelAt i (ls.map (fun l => ⟨false, l.row⟩)) errs2
            trie).cancelled := by
  intro ls
  induction ls with
  | nil => intro i errs errs2 trie; exact ⟨rfl, rfl⟩
  | cons l ls ih =>
    intro i errs errs2 trie
    rw [List.map_cons, readAllLoop, readAllLoop]
    by_cases hc : ctxDone cancelAt i = true
    · rw [if_pos hc, if_pos hc]
      exact ⟨rfl, rfl⟩
    · rw [if_neg hc, if_neg hc]
      exact ih (i + 1) _ _ (stepEntry trie l.row)

theorem readAllLoop_none_unfold :
    ∀ (ls : List DecLine) (i : Nat) (errs : List Nat)
      (trie : List (List Char × Test)),
      readAllLoop none i ls errs trie =
        { errs := errs ++ badIdx i ls,
          entries := (ls.map DecLine.row).foldl stepEntry trie,
          cancelled := false } := by
  intro ls
  induction ls with
  | nil => intro i errs trie; simp [readAllLoop, badIdx]
  | cons l ls ih =>
    intro i errs trie
    rw [readAllLoop]
    have hc : ctxDone none i = false := rfl
    rw [if_neg (by simp [hc]), ih, badIdx, List.map_cons, List.foldl_cons]
    cases hle : l.err <;> simp

theorem badIdx_nil_iff : ∀ (ls : List DecLine) (i : Nat),
    badIdx i ls = [] ↔ ∀ l ∈ ls, l.err = false := by
  intro ls
  induction ls with
  | nil => intro i; simp [badIdx]
  | cons l ls ih =>
    intro i
    rw [badIdx]
    cases hle : l.err with
    | true => simp [hle]
    | false => simp [hle, ih (i + 1)]

theorem readAllLoop_cancel_hit (k : Nat) :
    ∀ (ls : List DecLine) (i : Nat) (errs : List Nat)
      (trie : List (List Char × Test)), i ≤ k → k - i < ls.length →
      readAllLoop (some k) i ls errs trie =
        { errs := [], entries := [], cancelled := true } := by
  intro ls
  induction ls with
  | nil => intro i errs trie _ h; simp at h
  | cons l ls ih =>
    intro i errs trie hik hlen
    rw [readAllLoop]
    by_cases hki : k ≤ i
    · rw [if_pos (by simp [ctxDone, hki])]
    · rw [if_neg (by simp [ctxDone]; omega)]
      apply ih (i + 1) _ _ (by omega)
      simp only [List.length_cons] at hlen
      omega

theorem readAllLoop_cancel_miss (k : Nat) :
    ∀ (ls : List DecLine) (i : Nat) (errs : List Nat)
      (trie : List (List Char × Test)), i + ls.length ≤ k →
      readAllLoop (some k) i ls errs trie = readAllLoop none i ls errs trie := by
  intro ls
  induction ls with
  | nil => intro i errs trie _; rfl
  | cons l ls ih =>
    intro i errs trie hk
    simp only [List.length_cons] at hk
    have h1 : ctxDone (some k) i = false := by simp [ctxDone]; omega
    have h2 : ctxDone none i = false := rfl
    rw [readAllLoop, readAllLoop, h1, h2]
    simp only [Bool.false_eq_true, if_false]
    exact ih (i + 1) _ _ (by omega)

/-- C6: every decoded record with a non-empty test name is folded into
exactly one trie entry keyed `package + "/" + name` — the keys of the
resulting entries are pairwise distinct, the entry under each key is
exactly the `Test` created from the first record with that key with
every record for that key folded into it in order, and a record with an
empty test name leaves the trie untouched. -/
theorem readAll_identity_resolution (evs : List Entry) :
    ((foldEntries evs).map Prod.fst).Nodup ∧
      (∀ k, findT (foldEntries evs) k = specEntryFor evs k) ∧
      ∀ (trie : List (List Char × Test)) (e : Entry), e.testName = [] →
        stepEntry trie e = trie := by
  refine ⟨foldEntries_go_nodup evs [] (by simp), ?_,
    fun trie e h => stepEntry_skip trie e h⟩
  intro k
  show findT (evs.foldl stepEntry []) k = _
  rw [foldEntries_go_find k evs []]
  show extendEntry none _ = _
  rw [specEntryFor]
  cases hfl : evs.filter (fun e => !(e.testName == []) && (keyOf e == k)) with
  | nil => rfl
  | cons e es =>
    show extendEntry (some ((mkTest e).update e)) es = _
    rw [extendEntry_some]
    show _ = some (List.foldl Test.update (mkTest e) (e :: es))
    rw [List.foldl_cons]

/-- Witness for `readAll_identity_resolution`: a record carrying no test
name (a package-level line) leaves a concrete one-entry trie unchanged. -/
theorem readAll_identity_resolution_witness :
    stepEntry [("pkg/TestA".toList, ⟨"TestA".toList, "pkg".toList, [], [], 0⟩)]
        ⟨"pkg".toList, [], "run".toList, [], 0⟩ =
      [("pkg/TestA".toList, ⟨"TestA".toList, "pkg".toList, [], [], 0⟩)] :=
  (readAll_identity_resolution []).2.2
    [("pkg/TestA".toList, ⟨"TestA".toList, "pkg".toList, [], [], 0⟩)]
    ⟨"pkg".toList, [], "run".toList, [], 0⟩ rfl

/-- C10: a line whose decode failed is still folded: the trie entries
produced by `ReadAll` depend only on the records left by the decoder,
not on the error flags — a malformed line whose partially-populated
record carries a non-empty test name is looked up (or created) and
folded exactly as a successfully decoded event would be (reader.go:55-57
records the error and falls through to the fold without skipping the
iteration). -/
theorem readAll_folds_failed_decode (lines : List DecLine)
    (cancelAt : Option Nat) :
    (readAllGo cancelAt lines).entries =
      (readAllGo cancelAt (lines.map (fun l => ⟨false, l.row⟩))).entries :=
  (readAllLoop_err_irrelevant cancelAt lines 0 [] [] []).1

/-- C7: a malformed line does not stop processing — all decode errors
are joined into one aggregate value which is nil exactly when no line
was malformed, and a stream with one malformed line (decoding to the
empty record) among well-formed ones yields exactly the entries of the
well-formed lines, a non-empty error list, and no cancellation. -/
theorem readAll_decode_error_resilience (g1 g2 : List DecLine) (bad : DecLine)
    (hbe : bad.err = true) (hbn : bad.row.testName = []) :
    (readAllGo none (g1 ++ bad :: g2)).entries =
        (readAllGo none (g1 ++ g2)).entries ∧
      (readAllGo none (g1 ++ bad :: g2)).errs ≠ [] ∧
      (readAllGo none (g1 ++ bad :: g2)).cancelled = false ∧
      ∀ lines : List DecLine,
        ((readAllGo none lines).errs = [] ↔ ∀ l ∈ lines, l.err = false) := by
  have hunf := readAllLoop_none_unfold
  refine ⟨?_, ?_, ?_, ?_⟩
  · show (readAllLoop none 0 _ [] []).entries = (readAllLoop none 0 _ [] []).entries
    rw [hunf, hunf]
    simp only [List.map_append, List.map_cons, List.foldl_append, List.foldl_cons]
    rw [stepEntry_skip _ bad.row hbn]
  · show (readAllLoop none 0 _ [] []).errs ≠ []
    rw [hunf]
    simp only [List.nil_append, ne_eq]
    rw [badIdx_nil_iff]
    intro hall
    have := hall bad (by simp)
    rw [hbe] at this
    cases this
  · show (readAllLoop none 0 _ [] []).cancelled = false
    rw [hunf]
  · intro lines
    show (readAllLoop none 0 lines [] []).errs = [] ↔ _
    rw [hunf]
    simp only [List.nil_append]
    exact badIdx_nil_iff lines 0

/-- Witness for `readAll_decode_error_resilience`: one malformed line
(decoding to the zero record) between two well-formed output events. -/
theorem readAll_decode_error_resilience_witness :
    ((⟨true, ⟨[], [], [], [], 0⟩⟩ : DecLine).err = true) ∧
      ((⟨true, ⟨[], [], [], [], 0⟩⟩ : DecLine).row.testName = []) ∧
      ((readAllGo none
          ([⟨false, ⟨"pkg".toList, "TestA".toList, "output".toList, "x\n".toList, 0⟩⟩] ++
            (⟨true, ⟨[], [], [], [], 0⟩⟩ : DecLine) ::
              [⟨false, ⟨"pkg".toList, "TestB".toList, "output".toList, "y\n".toList, 0⟩⟩])).entries =
        (readAllGo none
          ([⟨false, ⟨"pkg".toList, "TestA".toList, "output".toList, "x\n".toList, 0⟩⟩] ++
            [⟨false, ⟨"pkg".toList, "TestB".toList, "output".toList, "y\n".toList, 0⟩⟩])).entries ∧
      (readAllGo none
          ([⟨false, ⟨"pkg".toList, "TestA".toList, "output".toList, "x\n".toList, 0⟩⟩] ++
            (⟨true, ⟨[], [], [], [], 0⟩⟩ : DecLine) ::
              [⟨false, ⟨"pkg".toList, "TestB".toList, "output".toList, "y\n".toList, 0⟩⟩])).errs ≠ [] ∧
      (readAllGo none
          ([⟨false, ⟨"pkg".toList, "TestA".toList, "output".toList, "x\n".toList, 0⟩⟩] ++
            (⟨true, ⟨[], [], [], [], 0⟩⟩ : DecLine) ::
              [⟨false, ⟨"pkg".toList, "TestB".toList, "output".toList, "y\n".toList, 0⟩⟩])).cancelled = false ∧
      ∀ lines : List DecLine,
        ((readAllGo none lines).errs = [] ↔ ∀ l ∈ lines, l.err = false)) :=
  ⟨rfl, rfl,
    readAll_decode_error_resilience
      [⟨false, ⟨"pkg".toList, "TestA".toList, "output".toList, "x\n".toList, 0⟩⟩]
      [⟨false, ⟨"pkg".toList, "TestB".toList, "output".toList, "y\n".toList, 0⟩⟩]
      ⟨true, ⟨[], [], [], [], 0⟩⟩ rfl rfl⟩

/-- C8, counterexample to the claim as stated: on an EMPTY input stream
an already-cancelled signal produces no cancellation error — the check
sits inside the `for r.r.Scan()` loop (reader.go:45-50), so with no line
to scan `ReadAll` returns the empty set with a nil error, not the
context's error. -/
theorem readAll_cancel_empty_stream_cex :
    (readAllGo (some 0) []).cancelled = false := rfl

/-- C8 (amended): on a stream with at least one line, a signal already
cancelled before the `k`-th line check aborts at that check — in
particular an already-cancelled signal (`k = 0`) yields the empty result
set and the cancellation error, never a partial tree; the check runs
once per consumed line, so a signal cancelled only after the last line
has no effect; and on an empty stream no check runs, so even an
already-cancelled signal yields the empty set with a nil error. -/
theorem readAll_cancellation (lines : List DecLine) (k : Nat) :
    (k < lines.length →
        readAllGo (some k) lines =
          { errs := [], entries := [], cancelled := true }) ∧
      (lines.length ≤ k → readAllGo (some k) lines = readAllGo none lines) ∧
      readAllGo (some 0) [] = { errs := [], entries := [], cancelled := false } := by
  refine ⟨?_, ?_, rfl⟩
  · intro hk
    exact readAllLoop_cancel_hit k lines 0 [] [] (Nat.zero_le k) (by omega)
  · intro hk
    exact readAllLoop_cancel_miss k lines 0 [] [] (by omega)

/-- Witness for `readAll_cancellation`: an already-cancelled signal on a
one-line stream yields the empty result with the cancellation error. -/
theorem readAll_cancellation_witness :
    0 < ([⟨false, ⟨"pkg".toList, "TestA".toList, "run".toList, [], 0⟩⟩] :
        List DecLine).length ∧
      readAllGo (some 0)
          [⟨false, ⟨"pkg".toList, "TestA".toList, "run".toList, [], 0⟩⟩] =
        { errs := [], entries := [], cancelled := true } :=
  ⟨by decide,
    (readAll_cancellation
      [⟨false, ⟨"pkg".toList, "TestA".toList, "run".toList, [], 0⟩⟩] 0).1
      (by decide)⟩

/-- C4: during the walk of a node with an attached `Test`, the emission
loop (reader.go:119-127, embedded as `emitAll`, invoked by `walk` on the
node's fragments) appends every raw output fragment to the shared buffer
in its original order, prepending the current branch indentation to the
fragments classified as result action rows and appending narrative
fragments unchanged. -/
theorem walk_emits_in_order (pfx buf : List Char) (outs : List (List Char)) :
    emitAll pfx buf outs =
      buf ++ (outs.map
        (fun o => if isResultActionRow o then pfx ++ o else o)).flatten :=
  emitAll_eq pfx outs buf

/-- C5: the indentation push/pop discipline and the frame of the walk.
Incrementing the branch prefix adds exactly one indent unit; a returning
`walk` hands back the caller's `prefixLog` exactly as it received it (the
deferred decrement undoing the increment, position marker untouched); the
shared buffer only ever grows; and the `NestedTest` produced for a node
is logged from exactly the bytes of the shared buffer from that node's
position marker onwards — each child is started by `walkChildren` with
`PrefixLog.copy`, whose position marker is the buffer length at the
moment of the copy, so its extraction reads only bytes written from that
point forward. -/
theorem walk_push_pop_frame (n : Option PrefixNode) (p : PrefixLog)
    (buf : List Char) (tc : Option NestedTest) (p' : PrefixLog)
    (buf' : List Char) (h : walk n p buf = .res tc p' buf') :
    p.incrPrefix.pfx = p.pfx ++ whitespaceIndent ∧
      p.incrPrefix.decrPrefix = p ∧
      p' = p ∧ buf <+: buf' ∧
      ∀ node t, n = some node → tc = some t →
        t.log = finishLog (buf'.drop p.pos) := by
  refine ⟨rfl, decrPrefix_incrPrefix p,
    (walk_frame n p buf tc p' buf' h).1, (walk_frame n p buf tc p' buf' h).2, ?_⟩
  rintro node t rfl rfl
  match node with
  | .mk none children =>
    rw [walk] at h
    cases h
  | .mk (some v) children =>
    simp only [walk] at h
    split at h
    · cases h
    · rename_i x kids buf2 hw
      cases h
      rfl

/-- Witness for `walk_push_pop_frame`: a node owning a `Test` with one
narrative fragment and no children, walked from a fresh prefix log and
empty shared buffer. -/
theorem walk_push_pop_frame_witness :
    walk (some (.mk (some ⟨"T".toList, "p".toList, ["ok\n".toList], [], 0⟩) []))
        newPrefixLog [] =
      .res (some (.mk ⟨"T".toList, "p".toList, [], [], 0⟩ [] "ok\n".toList))
        newPrefixLog "ok\n".toList ∧
      (newPrefixLog.incrPrefix.pfx = newPrefixLog.pfx ++ whitespaceIndent ∧
        newPrefixLog.incrPrefix.decrPrefix = newPrefixLog ∧
        newPrefixLog = newPrefixLog ∧
        ([] : List Char) <+: "ok\n".toList ∧
        ∀ node t,
          (some (.mk (some ⟨"T".toList, "p".toList, ["ok\n".toList], [], 0⟩) [])
              : Option PrefixNode) = some node →
            (some (.mk ⟨"T".toList, "p".toList, [], [], 0⟩ [] "ok\n".toList)
              : Option NestedTest) = some t →
            t.log = finishLog ("ok\n".toList.drop newPrefixLog.pos)) := by
  have h : walk
      (some (.mk (some ⟨"T".toList, "p".toList, ["ok\n".toList], [], 0⟩) []))
      newPrefixLog [] =
      .res (some (.mk ⟨"T".toList, "p".toList, [], [], 0⟩ [] "ok\n".toList))
        newPrefixLog "ok\n".toList := by
    rw [walk, walkChildren]
    have he : emitAll newPrefixLog.pfx [] ["ok\n".toList] = "ok\n".toList := by
      rw [emitAll_eq]
      have : isResultActionRow "ok\n".toList = false := by decide
      simp [this, newPrefixLog]
    rw [he]
    have hfin : finishLog ("ok\n".toList.drop newPrefixLog.pos) = "ok\n".toList := by
      decide
    have hdecr : newPrefixLog.incrPrefix.decrPrefix = newPrefixLog :=
      decrPrefix_incrPrefix newPrefixLog
    simp [hdecr]
    exact hfin
  exact ⟨h, walk_push_pop_frame _ _ _ _ _ _ h⟩

/-- C9, counterexample to the claim as stated: a trie node that exists
but whose `Test` pointer is nil makes `walk` panic at the dereference
`testCase.Value = *node.Value` (reader.go:106) instead of returning
not-ok. -/
theorem walk_nil_value_panics_cex :
    walk (some (.mk none [])) newPrefixLog [] = .panicked := by
  rw [walk]

/-- C9 (amended): a nil node POINTER makes `walk` return not-ok without
panicking and with the prefix log and shared buffer untouched, and the
child loop silently omits such a child, continuing with the remaining
children; but a node that exists with a nil `Test` pointer is not
handled: `walk` panics on it (see `walk_nil_value_panics_cex`). -/
theorem walk_nil_node_skipped (p : PrefixLog) (buf : List Char)
    (cs : List (Option PrefixNode)) (pl : PrefixLog) :
    walk none p buf = .res none p buf ∧
      walkChildren (none :: cs) pl buf = walkChildren cs pl buf ∧
      ∀ children, walk (some (.mk none children)) p buf = .panicked := by
  refine ⟨by rw [walk], ?_, fun children => by rw [walk]⟩
  rw [walkChildren, walk]

/-- C3: the classifier of `Reader.walk` deems a string a result line if
and only if it contains the literal `"---"` and at least one of the
upper-cased verdict words `"FAIL"`, `"PASS"`, `"SKIP"` as a substring,
anywhere and in any order; every other string is a narrative line. -/
theorem isResultActionRow_characterization (s : List Char) :
    isResultActionRow s = true ↔
      ("---".toList <:+: s ∧
        ("FAIL".toList <:+: s ∨ "PASS".toList <:+: s ∨ "SKIP".toList <:+: s)) := by
  unfold isResultActionRow
  have hf : toUpperL ActionFail = "FAIL".toList := by decide
  have hp : toUpperL ActionPass = "PASS".toList := by decide
  have hs : toUpperL ActionSkip = "SKIP".toList := by decide
  rw [hf, hp, hs]
  simp [hasSubstr_iff, Bool.and_eq_true, Bool.or_eq_true, or_assoc]

/-- C1, counterexample to the claim as stated.  For the node slice
`"--- FAIL: A\n--- PASS: B\n"` both result rows have indent count 0, so
the claim predicts the finished rows to be the narrative lines followed
by a stable ascending-by-count sort of the result rows in their original
relative order (`sortMarks` is such a stable sort, proved by
`sortMarks_filter`), keeping `FAIL` before `PASS`; the code instead
emits `PASS` before `FAIL`, because reader.go:178-188 collects the
result rows scanning backwards. -/
theorem walk_finishedRows_tie_cex :
    finishedRows ("--- FAIL: A\n--- PASS: B\n").toList ≠
      (splitLines ("--- FAIL: A\n--- PASS: B\n").toList).filter
          (fun l => !isResultActionRow l) ++
        sortMarks ((splitLines ("--- FAIL: A\n--- PASS: B\n").toList).filter
          (fun l => isResultActionRow l)) := by
  decide

/-- C1 (amended): for every node slice, the finished rows are the
narrative lines in their original relative order followed by the result
rows sorted ascending by indentation-unit count, with ties among result
rows of equal count in the REVERSE of their original relative order (the
backwards scan of reader.go:178-188 reverses them and the sort is an
insertion sort, hence stable, for fewer than 12 result rows — the bound
under which this embedding of `sort.Slice` is exact); in particular a
depth-1 result row precedes a depth-2 result row regardless of the order
they were appended to the raw buffer. -/
theorem walk_finishedRows_order (all : List Char)
    (hlt : ((splitLines all).filter (fun l => isResultActionRow l)).length < 12) :
    ∃ S : List (List Char),
      finishedRows all =
          (splitLines all).filter (fun l => !isResultActionRow l) ++ S ∧
        S.Perm ((splitLines all).filter (fun l => isResultActionRow l)) ∧
        S.Pairwise (fun a b => cntOf a ≤ cntOf b) ∧
        (∀ k, S.filter (fun l => cntOf l == k) =
          (((splitLines all).filter (fun l => isResultActionRow l)).filter
            (fun l => cntOf l == k)).reverse) ∧
        finishLog all =
          (((splitLines all).filter (fun l => !isResultActionRow l) ++ S).map
            (fun row => replaceN whitespaceIndent [] row (minIndent all))).flatten := by
  have hrows : finishedRows all =
      (splitLines all).filter (fun l => !isResultActionRow l) ++
        sortMarks (((splitLines all).filter (fun l => isResultActionRow l)).reverse) := by
    show (let r := extractMarks (splitLines all); r.1 ++ sortMarks r.2.1) = _
    rw [extractMarks_eq]
  refine ⟨sortMarks (((splitLines all).filter (fun l => isResultActionRow l)).reverse),
    hrows, ?_, ?_, ?_, ?_⟩
  · exact (sortMarks_perm _).trans (List.reverse_perm _)
  · exact sortMarks_sorted _
  · intro k
    rw [sortMarks_filter, List.filter_reverse]
  · unfold finishLog
    rw [foldl_append_map, List.nil_append, hrows]

/-- C2, counterexample to the claim as stated.  In the node slice
`"a    b\n    --- PASS: X"` the minimum indent count among result rows is
1, and the narrative row `"a    b\n"` carries zero LEADING indent units
but one interior occurrence of the indent unit; `strings.Replace`
(reader.go:201) removes that interior occurrence, whereas the claim
(strip only leading indent units) would leave the row unchanged. -/
theorem walk_finishLog_leading_cex :
    finishLog ("a    b\n    --- PASS: X").toList ≠
      finishLogSpecLeading ("a    b\n    --- PASS: X").toList := by
  decide

/-- C2 (amended): the final log bytes are produced by removing the first
`mx` occurrences of the indent unit from every row — occurrences anywhere
in the row, not only leading ones — where `mx` is the minimum indent-unit
count among the node's result rows, and concatenating.  Consequently, if
every line of the finished log shares a common indent-unit count
`c ≥ 1` (with at least one result row present, and `c` at most the
`1<<31 - 1` tracker initialiser), then `mx = c`, that count is fully
stripped from every line, and no emitted line begins with an indent
unit. -/
theorem walk_finishLog_strip (all : List Char) (c : Nat)
    (hall : ∀ l ∈ splitLines all, cntOf l = c)
    (hc : 1 ≤ c) (hcm : c ≤ maxInt31)
    (hmarks : (splitLines all).filter (fun l => isResultActionRow l) ≠ []) :
    minIndent all = c ∧
      finishLog all = ((finishedRows all).map
        (fun row => replaceN whitespaceIndent [] row (minIndent all))).flatten ∧
      ∀ row ∈ (finishedRows all).map
          (fun row => replaceN whitespaceIndent [] row (minIndent all)),
        countOccur whitespaceIndent row = 0 ∧
          whitespaceIndent.isPrefixOf row = false := by
  have hmx := minIndent_eq_of_const all c hall hcm hmarks
  refine ⟨hmx, ?_, ?_⟩
  · show (finishedRows all).foldl _ [] = _
    rw [foldl_append_map]
    simp
  · intro row hrow
    rcases List.mem_map.mp hrow with ⟨r, hr, rfl⟩
    have hrc : cntOf r = c := hall r ((finishedRows_perm all).mem_iff.mp hr)
    have h0 : countOccur whitespaceIndent
        (replaceN whitespaceIndent [] r (minIndent all)) = 0 := by
      rw [hmx]
      exact countOccur_replaceN_eq_zero r c (le_of_eq hrc)
    refine ⟨h0, ?_⟩
    cases hp : whitespaceIndent.isPrefixOf
        (replaceN whitespaceIndent [] r (minIndent all)) with
    | false => rfl
    | true =>
      have := one_le_countOccur_of_wsPrefix hp
      omega

/-- Witness for `walk_finishLog_strip` at the slice
`"    hello\n    --- PASS: X"`, all of whose lines have indent count 1. -/
theorem walk_finishLog_strip_witness :
    (∀ l ∈ splitLines ("    hello\n    --- PASS: X").toList, cntOf l = 1) ∧
      (1 : Nat) ≤ 1 ∧ 1 ≤ maxInt31 ∧
      (splitLines ("    hello\n    --- PASS: X").toList).filter
        (fun l => isResultActionRow l) ≠ [] ∧
      (minIndent ("    hello\n    --- PASS: X").toList = 1 ∧
        finishLog ("    hello\n    --- PASS: X").toList =
          ((finishedRows ("    hello\n    --- PASS: X").toList).map
            (fun row => replaceN whitespaceIndent [] row
              (minIndent ("    hello\n    --- PASS: X").toList))).flatten ∧
        ∀ row ∈ (finishedRows ("    hello\n    --- PASS: X").toList).map
            (fun row => replaceN whitespaceIndent [] row
              (minIndent ("    hello\n    --- PASS: X").toList)),
          countOccur whitespaceIndent row = 0 ∧
            whitespaceIndent.isPrefixOf row = false) :=
  ⟨by decide, by decide, by decide, by decide,
    walk_finishLog_strip _ 1 (by decide) (by decide) (by decide) (by decide)⟩

/-- Witness for `walk_finishedRows_order` at the slice
`"a\n--- PASS: ok\n    --- FAIL: sub"`. -/
theorem walk_finishedRows_order_witness :
    (((splitLines ("a\n--- PASS: ok\n    --- FAIL: sub").toList).filter
        (fun l => isResultActionRow l)).length < 12) ∧
      ∃ S : List (List Char),
        finishedRows ("a\n--- PASS: ok\n    --- FAIL: sub").toList =
            (splitLines ("a\n--- PASS: ok\n    --- FAIL: sub").toList).filter
              (fun l => !isResultActionRow l) ++ S ∧
          S.Perm ((splitLines ("a\n--- PASS: ok\n    --- FAIL: sub").toList).filter
            (fun l => isResultActionRow l)) ∧
          S.Pairwise (fun a b => cntOf a ≤ cntOf b) ∧
          (∀ k, S.filter (fun l => cntOf l == k) =
            (((splitLines ("a\n--- PASS: ok\n    --- FAIL: sub").toList).filter
              (fun l => isResultActionRow l)).filter (fun l => cntOf l == k)).reverse) ∧
          finishLog ("a\n--- PASS: ok\n    --- FAIL: sub").toList =
            (((splitLines ("a\n--- PASS: ok\n    --- FAIL: sub").toList).filter
                (fun l => !isResultActionRow l) ++ S).map
              (fun row => replaceN whitespaceIndent [] row
                (minIndent ("a\n--- PASS: ok\n    --- FAIL: sub").toList))).flatten :=
  ⟨by decide, walk_finishedRows_order _ (by decide)⟩

end gotest
